import Mathlib

/-!
# RayTracing: a verification development for `src/main.cpp`

The program casts one ray per pixel at a single hardcoded sphere and writes a
plain-text PPM image.  This file embeds the program's functions in Lean and
proves (or refutes) statements of its specification about them.

## Modelling conventions

* The C++ `float`/`double` scalars are modelled by an arbitrary linearly
  ordered field `F` with a floor function (`ℚ` and `ℝ` are instances), that is
  by exact arithmetic: rounding, overflow to infinity and NaN are not modelled.
  Properties that hold only without rounding, overflow or underflow (that a
  computed discriminant has the sign of the exact one, that a normalized vector
  has magnitude exactly 1, that `(a + b) - b` is exactly `a`) are therefore not
  asserted about the program; the statements kept are identities between
  expressions the code evaluates, evaluations at inputs whose values are exact
  in binary32, and facts about the reference render.
* The C library function `sqrtf` is a parameter `sqrtf : F → F` of every
  definition that calls it.  Theorems that depend on what a square root is are
  stated for `F = ℝ` and `sqrtf = Real.sqrt`.
* The conversion of a floating value to `int` truncates toward zero; a value
  whose truncation does not fit a 32-bit `int` has no defined result in C++,
  which `static_cast_int` models by `none`.
* `std::ofstream` is modelled by the text written so far.
-/

namespace RayTracing

/-! ## Data model (`struct Vec`, `struct Ray`) -/

/-- The `struct Vec` of the source: three scalar components. -/
structure Vec (F : Type) where
  x : F
  y : F
  z : F

/-- The `struct Ray` of the source: an origin and a direction. -/
structure Ray (F : Type) where
  origin : Vec F
  direction : Vec F

section VecDefs

variable {F : Type} [LinearOrderedField F]

/-- `Vec::operator+`. -/
def Vec.add (a other : Vec F) : Vec F :=
  Vec.mk (a.x + other.x) (a.y + other.y) (a.z + other.z)

/-- `Vec::operator-`. -/
def Vec.sub (a other : Vec F) : Vec F :=
  Vec.mk (a.x - other.x) (a.y - other.y) (a.z - other.z)

/-- `Vec::operator*` (vector times scalar). -/
def Vec.mul (a : Vec F) (scale : F) : Vec F :=
  Vec.mk (a.x * scale) (a.y * scale) (a.z * scale)

/-- `Vec::dot`. -/
def Vec.dot (a other : Vec F) : F :=
  a.x * other.x + a.y * other.y + a.z * other.z

/-- `Vec::cross`. -/
def Vec.cross (a other : Vec F) : Vec F :=
  Vec.mk (a.y * other.z - a.z * other.y)
    (a.z * other.x - a.x * other.z)
    (a.x * other.y - a.y * other.x)

/-- `Vec::magnitude`. -/
def Vec.magnitude (sqrtf : F → F) (a : Vec F) : F :=
  sqrtf (a.x * a.x + a.y * a.y + a.z * a.z)

/-- `Vec::normalized`. -/
def Vec.normalized (sqrtf : F → F) (a : Vec F) : Vec F :=
  let mag := Vec.magnitude sqrtf a
  Vec.mk (a.x / mag) (a.y / mag) (a.z / mag)

/-- `Ray::ray_at`. -/
def Ray.ray_at (r : Ray F) (t : F) : Vec F :=
  r.origin.add (r.direction.mul t)

end VecDefs

/-! ## Conversion to `int` and the colour writer -/

section WriterDefs

variable {F : Type} [LinearOrderedField F] [FloorRing F]

/-- The value of a floating-to-integer conversion: the fractional part is
discarded (truncation toward zero). -/
def truncate (v : F) : Int :=
  if 0 ≤ v then Int.floor v else Int.ceil v

/-- `static_cast<int>(v)`: the truncation of `v` when it is representable in a
32-bit `int`; otherwise the conversion has no defined result. -/
def static_cast_int (v : F) : Option Int :=
  let n := truncate v
  if -2147483648 ≤ n ∧ n ≤ 2147483647 then some n else none

/-- The three integers `ir`, `ig`, `ib` computed by `vec_write_color`. -/
def color_ints (color : Vec F) : Option (Int × Int × Int) :=
  match static_cast_int (255.999 * color.x), static_cast_int (255.999 * color.y),
    static_cast_int (255.999 * color.z) with
  | some ir, some ig, some ib => some (ir, ig, ib)
  | _, _, _ => none

/-- The text `outfile << ir << ' ' << ig << ' ' << ib << '\n'` appends. -/
def pixel_line (ir ig ib : Int) : String :=
  toString ir ++ " " ++ toString ig ++ " " ++ toString ib ++ "\n"

/-- `vec_write_color`: the content of `outfile` after the call. -/
def vec_write_color (outfile : String) (color : Vec F) : Option String :=
  match color_ints color with
  | some (ir, ig, ib) => some (outfile ++ pixel_line ir ig ib)
  | none => none

end WriterDefs

/-! ## The intersector and the shader -/

section ShaderDefs

variable {F : Type} [LinearOrderedField F]

/-- `sphere`: the ray parameter the intersector returns, `-1` for "no hit". -/
def sphere (sqrtf : F → F) (center : Vec F) (radius : F) (ray : Ray F) : F :=
  let o := ray.origin
  let d := ray.direction
  let oc := o.sub center
  let a := d.dot d
  let b := 2 * d.dot oc
  let c := oc.dot oc - radius * radius
  let dc := b * b - 4 * a * c
  if dc < 0 then -1
  else (-b + sqrtf dc) / 2 * a

/-- `ray_color`. -/
def ray_color (sqrtf : F → F) (r : Ray F) : Vec F :=
  let t := sphere sqrtf (Vec.mk 0 0 (-3)) 1 r
  if t > 0 then
    let n := ((r.ray_at t).add (Vec.mk 0 0 5)).normalized sqrtf
    (Vec.mk (n.x + 1) (n.y + 1) (n.z + 1)).mul 0.5
  else Vec.mk 0.2 0.2 0.2

end ShaderDefs

/-! ## The camera set-up of `main` -/

section CameraDefs

variable {F : Type} [LinearOrderedField F] [FloorRing F]

/-- `float aspect = 4.0f / 3.0f`. -/
def aspect : F := 4 / 3

/-- `int ih = 480`. -/
def ih : Int := 480

/-- `int iw = aspect * ih`. -/
def iw (F : Type) [LinearOrderedField F] [FloorRing F] : Int :=
  truncate ((aspect : F) * (ih : F))

/-- `float vh = 2.0`. -/
def vh : F := 2

/-- `float vw = vh * iw / ih`. -/
def vw : F := vh * (iw F : F) / (ih : F)

/-- `Vec eye = { 0, 0, 0 }`. -/
def eye : Vec F := Vec.mk 0 0 0

/-- `Vec foc = { 0, 0, -1 }`. -/
def foc : Vec F := Vec.mk 0 0 (-1)

/-- `Vec vu = { vw, 0, 0 }`. -/
def vu : Vec F := Vec.mk vw 0 0

/-- `Vec vv = { 0, -vh, 0 }`. -/
def vv : Vec F := Vec.mk 0 (-vh) 0

/-- `Vec pu = vu * (1.0f / iw)`. -/
def pu : Vec F := (vu : Vec F).mul (1 / (iw F : F))

/-- `Vec pv = vv * (1.0f / ih)`. -/
def pv : Vec F := (vv : Vec F).mul (1 / (ih : F))

/-- `Vec p0 = ((eye + foc) + ((vu * -0.5) + (vv * -0.5))) + ((pu + pv) * 0.5)`. -/
def p0 : Vec F :=
  (((eye : Vec F).add foc).add (((vu : Vec F).mul (-0.5)).add ((vv : Vec F).mul (-0.5)))).add
    (((pu : Vec F).add pv).mul 0.5)

/-- `Vec p = p0 + ((pu * i) + (pv * j))` in the loop body of `main`. -/
def pixel_center (i j : Int) : Vec F :=
  (p0 : Vec F).add (((pu : Vec F).mul (i : F)).add ((pv : Vec F).mul (j : F)))

/-- The ray `r` the loop body of `main` builds for pixel `(i, j)`:
`Vec p = ...; Vec d = p - eye; Ray r = { p, d };`. -/
def pixel_ray (i j : Int) : Ray F :=
  let p : Vec F := pixel_center i j
  let d := p.sub eye
  Ray.mk p d

end CameraDefs

/-! ## The output of `main` -/

section MainDefs

variable {F : Type} [LinearOrderedField F] [FloorRing F]

/-- The text `main` writes first: `std::format("P3\n640 480\n255\n")`. -/
def header : String := "P3\n640 480\n255\n"

/-- The statement `vec_write_color(outfile, ray_color(r))` of the inner loop of
`main`, for the ray `r` built just before it.  Once a conversion to `int` had
no defined result, the output stays undefined. -/
def write_pixel (sqrtf : F → F) (outfile : Option String) (r : Ray F) : Option String :=
  outfile.bind (fun s => vec_write_color s (ray_color sqrtf r))

/-- The inner loop `for (int i = 0; i < iw; ++i)` of `main`, for the row `j`. -/
def write_row (sqrtf : F → F) (outfile : Option String) (j : Nat) : Option String :=
  (List.range (iw F).toNat).foldl
    (fun out (i : Nat) => write_pixel sqrtf out (pixel_ray (i : Int) (j : Int))) outfile

/-- `main`: the content of `image.ppm` when the program ends; the outer loop is
`for (int j = 0; j < ih; ++j)`. -/
def main (sqrtf : F → F) : Option String :=
  (List.range ih.toNat).foldl (write_row sqrtf) (some header)

end MainDefs

/-! ## Vocabulary of the specification -/

section SpecDefs

variable {F : Type} [LinearOrderedField F]

/-- The zero vector. -/
def Vec.zero : Vec F := Vec.mk 0 0 0

/-- The coefficient `a = d . d` of the intersection quadratic, as the
specification writes it. -/
def spec_a (ray : Ray F) : F :=
  ray.direction.dot ray.direction

/-- The coefficient `b = 2 * d . (o - center)`, as the specification writes it. -/
def spec_b (center : Vec F) (ray : Ray F) : F :=
  2 * ray.direction.dot (ray.origin.sub center)

/-- The coefficient `c = (o - center) . (o - center) - radius^2`, as the
specification writes it. -/
def spec_c (center : Vec F) (radius : F) (ray : Ray F) : F :=
  (ray.origin.sub center).dot (ray.origin.sub center) - radius ^ 2

/-- The discriminant `disc = b^2 - 4ac`, as the specification writes it. -/
def spec_disc (center : Vec F) (radius : F) (ray : Ray F) : F :=
  spec_b center ray ^ 2 - 4 * spec_a ray * spec_c center radius ray

/-- The point `P` lies on the sphere: `(P - center) . (P - center) = radius^2`. -/
def on_sphere (center : Vec F) (radius : F) (P : Vec F) : Prop :=
  (P.sub center).dot (P.sub center) = radius ^ 2

/-- The parameter `t` is the nearest intersection in front of the ray origin:
the smallest `t > 0` whose point `ray_at t` lies on the sphere. -/
def nearest_hit (center : Vec F) (radius : F) (ray : Ray F) (t : F) : Prop :=
  0 < t ∧ on_sphere center radius (ray.ray_at t) ∧
    ∀ u, 0 < u → on_sphere center radius (ray.ray_at u) → t ≤ u

/-- The colour the specification assigns to a hit at parameter `t`:
`(n + (1,1,1)) * 0.5` with `n` the normalized vector `ray_at t + (0,0,5)`. -/
def spec_hit_color (sqrtf : F → F) (r : Ray F) (t : F) : Vec F :=
  ((((r.ray_at t).add (Vec.mk 0 0 5)).normalized sqrtf).add (Vec.mk 1 1 1)).mul 0.5

/-- The negation of a vector, component by component. -/
def Vec.neg (a : Vec F) : Vec F :=
  Vec.mk (-a.x) (-a.y) (-a.z)

/-- The number of lines of a text in which every line ends with a newline. -/
def newline_count (s : String) : Nat :=
  s.data.count '\n'

/-- The text made of the given lines, one after the other. -/
def concat_lines (lines : List String) : String :=
  lines.foldr (fun l rest => l ++ rest) ""

end SpecDefs

/-! ## The intersection quadratic -/

section Lemmas
variable {F : Type} [LinearOrderedField F]

theorem sphere_eq (sqrtf : F → F) (center : Vec F) (radius : F) (ray : Ray F) :
    sphere sqrtf center radius ray =
      if spec_disc center radius ray < 0 then -1
      else (-(spec_b center ray) + sqrtf (spec_disc center radius ray)) / 2 * spec_a ray := by
  have h : 2 * ray.direction.dot (ray.origin.sub center) *
        (2 * ray.direction.dot (ray.origin.sub center)) -
        4 * ray.direction.dot ray.direction *
          ((ray.origin.sub center).dot (ray.origin.sub center) - radius * radius) =
      spec_disc center radius ray := by
    simp only [spec_disc, spec_a, spec_b, spec_c]; ring
  simp only [sphere, h, spec_a, spec_b]

theorem spec_a_pos (ray : Ray F) (hd : ray.direction ≠ Vec.zero) : 0 < spec_a ray := by
  obtain ⟨o, ⟨x, y, z⟩⟩ := ray
  simp only [spec_a, Vec.dot]
  rcases lt_or_eq_of_le (show 0 ≤ x * x + y * y + z * z by nlinarith [mul_self_nonneg x, mul_self_nonneg y, mul_self_nonneg z]) with h | h
  · exact h
  · exfalso
    apply hd
    have hx : x = 0 := by nlinarith [mul_self_nonneg x, mul_self_nonneg y, mul_self_nonneg z]
    have hy : y = 0 := by nlinarith [mul_self_nonneg x, mul_self_nonneg y, mul_self_nonneg z]
    have hz : z = 0 := by nlinarith [mul_self_nonneg x, mul_self_nonneg y, mul_self_nonneg z]
    simp [Vec.zero, hx, hy, hz]

end Lemmas

section SquareRoots

theorem sqrt_four : Real.sqrt 4 = 2 := by
  rw [show (4 : ℝ) = 2 ^ 2 by norm_num]
  exact Real.sqrt_sq (by norm_num)

theorem sqrt_sixteen : Real.sqrt 16 = 4 := by
  rw [show (16 : ℝ) = 4 ^ 2 by norm_num]
  exact Real.sqrt_sq (by norm_num)

end SquareRoots

/-! ## C1: which root `sphere` returns -/

/-- C1 (counterexample): for the sphere with center (0,0,0) and radius 1 and
the ray with origin (0,0,2) and direction (0,0,-1), the direction is non-zero
and the discriminant is non-negative, `sphere` returns 3, and the smaller root
`(-b - sqrt(disc)) / (2a)` is 1: `sphere` does not return the smaller root. -/
theorem sphere_smaller_root_counterexample :
    (Ray.mk (Vec.mk 0 0 2) (Vec.mk 0 0 (-1)) : Ray ℝ).direction ≠ Vec.zero ∧
    0 ≤ spec_disc (Vec.mk 0 0 0) 1 (Ray.mk (Vec.mk 0 0 2) (Vec.mk 0 0 (-1)) : Ray ℝ) ∧
    sphere Real.sqrt (Vec.mk 0 0 0) 1 (Ray.mk (Vec.mk 0 0 2) (Vec.mk 0 0 (-1))) = 3 ∧
    (-(spec_b (Vec.mk 0 0 0) (Ray.mk (Vec.mk 0 0 2) (Vec.mk 0 0 (-1)) : Ray ℝ)) -
        Real.sqrt (spec_disc (Vec.mk 0 0 0) 1 (Ray.mk (Vec.mk 0 0 2) (Vec.mk 0 0 (-1))))) /
      (2 * spec_a (Ray.mk (Vec.mk 0 0 2) (Vec.mk 0 0 (-1)) : Ray ℝ)) = 1 ∧
    sphere Real.sqrt (Vec.mk 0 0 0) 1 (Ray.mk (Vec.mk 0 0 2) (Vec.mk 0 0 (-1))) ≠
      (-(spec_b (Vec.mk 0 0 0) (Ray.mk (Vec.mk 0 0 2) (Vec.mk 0 0 (-1)) : Ray ℝ)) -
        Real.sqrt (spec_disc (Vec.mk 0 0 0) 1 (Ray.mk (Vec.mk 0 0 2) (Vec.mk 0 0 (-1))))) /
      (2 * spec_a (Ray.mk (Vec.mk 0 0 2) (Vec.mk 0 0 (-1)) : Ray ℝ)) := by
  have hb : spec_b (Vec.mk 0 0 0) (Ray.mk (Vec.mk 0 0 2) (Vec.mk 0 0 (-1)) : Ray ℝ) = -4 := by
    simp only [spec_b, Vec.dot, Vec.sub]; norm_num
  have ha : spec_a (Ray.mk (Vec.mk 0 0 2) (Vec.mk 0 0 (-1)) : Ray ℝ) = 1 := by
    simp only [spec_a, Vec.dot]; norm_num
  have hD : spec_disc (Vec.mk 0 0 0) 1 (Ray.mk (Vec.mk 0 0 2) (Vec.mk 0 0 (-1)) : Ray ℝ) = 4 := by
    simp only [spec_disc, hb, ha, spec_c, Vec.dot, Vec.sub]; norm_num
  have hs : sphere Real.sqrt (Vec.mk 0 0 0) 1 (Ray.mk (Vec.mk 0 0 2) (Vec.mk 0 0 (-1))) = 3 := by
    rw [sphere_eq, hD, hb, ha, sqrt_four]; norm_num
  refine ⟨?_, ?_, hs, ?_, ?_⟩
  · intro h
    have := congrArg Vec.z h
    simp [Vec.zero] at this
  · rw [hD]; norm_num
  · rw [hD, hb, ha, sqrt_four]; norm_num
  · rw [hs, hD, hb, ha, sqrt_four]; norm_num

/-- C1 (amended): for every sphere and every ray whose direction satisfies
`d . d = 1` and whose discriminant is non-negative, `sphere` returns the larger
root `(-b + sqrt(disc)) / (2a)` of the intersection quadratic, which is at
least the smaller root `(-b - sqrt(disc)) / (2a)`. -/
theorem sphere_larger_root_of_unit_direction (center : Vec ℝ) (radius : ℝ) (ray : Ray ℝ)
    (hunit : ray.direction.dot ray.direction = 1)
    (hdisc : 0 ≤ spec_disc center radius ray) :
    sphere Real.sqrt center radius ray =
        (-(spec_b center ray) + Real.sqrt (spec_disc center radius ray)) / (2 * spec_a ray) ∧
      (-(spec_b center ray) - Real.sqrt (spec_disc center radius ray)) / (2 * spec_a ray) ≤
        sphere Real.sqrt center radius ray := by
  have ha : spec_a ray = 1 := hunit
  have h0 := Real.sqrt_nonneg (spec_disc center radius ray)
  rw [sphere_eq, if_neg (not_lt.mpr hdisc), ha]
  constructor
  · ring
  · linarith

/-- Witness for C1 (amended): the sphere with center (0,0,-3) and radius 1 and
the unit-direction ray from (0,0,0) along (0,0,-1); the larger root is 4. -/
theorem sphere_larger_root_of_unit_direction_witness :
    (Ray.mk (Vec.mk 0 0 0) (Vec.mk 0 0 (-1)) : Ray ℝ).direction.dot
        (Ray.mk (Vec.mk 0 0 0) (Vec.mk 0 0 (-1)) : Ray ℝ).direction = 1 ∧
    0 ≤ spec_disc (Vec.mk 0 0 (-3)) 1 (Ray.mk (Vec.mk 0 0 0) (Vec.mk 0 0 (-1)) : Ray ℝ) ∧
    sphere Real.sqrt (Vec.mk 0 0 (-3)) 1 (Ray.mk (Vec.mk 0 0 0) (Vec.mk 0 0 (-1))) = 4 := by
  have hb : spec_b (Vec.mk 0 0 (-3)) (Ray.mk (Vec.mk 0 0 0) (Vec.mk 0 0 (-1)) : Ray ℝ) = -6 := by
    simp only [spec_b, Vec.dot, Vec.sub]; norm_num
  have ha : spec_a (Ray.mk (Vec.mk 0 0 0) (Vec.mk 0 0 (-1)) : Ray ℝ) = 1 := by
    simp only [spec_a, Vec.dot]; norm_num
  have hD : spec_disc (Vec.mk 0 0 (-3)) 1 (Ray.mk (Vec.mk 0 0 0) (Vec.mk 0 0 (-1)) : Ray ℝ) = 4 := by
    simp only [spec_disc, hb, ha, spec_c, Vec.dot, Vec.sub]; norm_num
  have h1 : (Ray.mk (Vec.mk 0 0 0) (Vec.mk 0 0 (-1)) : Ray ℝ).direction.dot
      (Ray.mk (Vec.mk 0 0 0) (Vec.mk 0 0 (-1)) : Ray ℝ).direction = 1 := ha
  have h2 : 0 ≤ spec_disc (Vec.mk 0 0 (-3)) 1
      (Ray.mk (Vec.mk 0 0 0) (Vec.mk 0 0 (-1)) : Ray ℝ) := by rw [hD]; norm_num
  refine ⟨h1, h2, ?_⟩
  rw [(sphere_larger_root_of_unit_direction _ _ _ h1 h2).1, hD, hb, ha, sqrt_four]
  norm_num

/-! ## C2: nearest or farthest intersection -/

/-- C2 (counterexample): for the sphere with center (0,0,-3) and radius 1 and
the ray from (0,0,0) along (0,0,-1), whose origin is outside the sphere with
the sphere ahead, the quadratic has the root 2 > 0 on the sphere, yet `sphere`
returns 4, the far root: the returned value is not the nearest intersection. -/
theorem sphere_nearest_hit_counterexample :
    (Ray.mk (Vec.mk 0 0 0) (Vec.mk 0 0 (-1)) : Ray ℝ).direction ≠ Vec.zero ∧
    ((0 : ℝ) < 2 ∧ on_sphere (Vec.mk 0 0 (-3)) 1
      ((Ray.mk (Vec.mk 0 0 0) (Vec.mk 0 0 (-1)) : Ray ℝ).ray_at 2)) ∧
    sphere Real.sqrt (Vec.mk 0 0 (-3)) 1 (Ray.mk (Vec.mk 0 0 0) (Vec.mk 0 0 (-1))) = 4 ∧
    ¬ nearest_hit (Vec.mk 0 0 (-3)) 1 (Ray.mk (Vec.mk 0 0 0) (Vec.mk 0 0 (-1)) : Ray ℝ)
      (sphere Real.sqrt (Vec.mk 0 0 (-3)) 1 (Ray.mk (Vec.mk 0 0 0) (Vec.mk 0 0 (-1)))) := by
  have hb : spec_b (Vec.mk 0 0 (-3)) (Ray.mk (Vec.mk 0 0 0) (Vec.mk 0 0 (-1)) : Ray ℝ) = -6 := by
    simp only [spec_b, Vec.dot, Vec.sub]; norm_num
  have ha : spec_a (Ray.mk (Vec.mk 0 0 0) (Vec.mk 0 0 (-1)) : Ray ℝ) = 1 := by
    simp only [spec_a, Vec.dot]; norm_num
  have hD : spec_disc (Vec.mk 0 0 (-3)) 1 (Ray.mk (Vec.mk 0 0 0) (Vec.mk 0 0 (-1)) : Ray ℝ) = 4 := by
    simp only [spec_disc, hb, ha, spec_c, Vec.dot, Vec.sub]; norm_num
  have hs : sphere Real.sqrt (Vec.mk 0 0 (-3)) 1
      (Ray.mk (Vec.mk 0 0 0) (Vec.mk 0 0 (-1))) = 4 := by
    rw [sphere_eq, hD, hb, ha, sqrt_four]; norm_num
  have hon : on_sphere (Vec.mk 0 0 (-3)) 1
      ((Ray.mk (Vec.mk 0 0 0) (Vec.mk 0 0 (-1)) : Ray ℝ).ray_at 2) := by
    simp only [on_sphere, Ray.ray_at, Vec.add, Vec.sub, Vec.mul, Vec.dot]; norm_num
  refine ⟨?_, ⟨by norm_num, hon⟩, hs, ?_⟩
  · intro h
    have := congrArg Vec.z h
    simp [Vec.zero] at this
  · rintro ⟨-, -, hmin⟩
    have := hmin 2 (by norm_num) hon
    rw [hs] at this
    norm_num at this

/-- C2 (amended): for every sphere and every ray whose direction satisfies
`d . d = 1` and whose discriminant `disc = b^2 - 4ac` is `>= 0`: if the
quadratic-formula value with the plus sign, `(-b + sqrt(disc)) / (2a)`, is
`> 0` (at least one intersection ahead), `sphere` returns that value; and if
the value with the minus sign, `(-b - sqrt(disc)) / (2a)`, is `> 0` as well
(the origin is outside the sphere with the sphere ahead), the returned value is
`> 0` and at least the value with the minus sign: the far intersection, not
the near one. -/
theorem sphere_far_value_of_unit_direction (center : Vec ℝ) (radius : ℝ) (ray : Ray ℝ)
    (hunit : ray.direction.dot ray.direction = 1)
    (hdisc : 0 ≤ spec_disc center radius ray) :
    (0 < (-(spec_b center ray) + Real.sqrt (spec_disc center radius ray)) / (2 * spec_a ray) →
        sphere Real.sqrt center radius ray =
          (-(spec_b center ray) + Real.sqrt (spec_disc center radius ray)) /
            (2 * spec_a ray) ∧
        0 < sphere Real.sqrt center radius ray) ∧
      (0 < (-(spec_b center ray) - Real.sqrt (spec_disc center radius ray)) / (2 * spec_a ray) →
        0 < sphere Real.sqrt center radius ray ∧
        (-(spec_b center ray) - Real.sqrt (spec_disc center radius ray)) / (2 * spec_a ray) ≤
          sphere Real.sqrt center radius ray) := by
  have ha : spec_a ray = 1 := hunit
  have h0 := Real.sqrt_nonneg (spec_disc center radius ray)
  rw [sphere_eq, if_neg (not_lt.mpr hdisc), ha]
  constructor
  · intro hfar
    refine ⟨by ring, ?_⟩
    linarith
  · intro hnear
    constructor <;> linarith

/-- Witness for C2 (amended): the sphere with center (0,0,-3) and radius 1 and
the unit-direction ray from (0,0,0) along (0,0,-1); the value with the minus
sign is 2, the value with the plus sign is 4 and `sphere` returns 4. -/
theorem sphere_far_value_of_unit_direction_witness :
    (Ray.mk (Vec.mk 0 0 0) (Vec.mk 0 0 (-1)) : Ray ℝ).direction.dot
        (Ray.mk (Vec.mk 0 0 0) (Vec.mk 0 0 (-1)) : Ray ℝ).direction = 1 ∧
    0 ≤ spec_disc (Vec.mk 0 0 (-3)) 1 (Ray.mk (Vec.mk 0 0 0) (Vec.mk 0 0 (-1)) : Ray ℝ) ∧
    (-(spec_b (Vec.mk 0 0 (-3)) (Ray.mk (Vec.mk 0 0 0) (Vec.mk 0 0 (-1)) : Ray ℝ)) +
        Real.sqrt (spec_disc (Vec.mk 0 0 (-3)) 1 (Ray.mk (Vec.mk 0 0 0) (Vec.mk 0 0 (-1))))) /
      (2 * spec_a (Ray.mk (Vec.mk 0 0 0) (Vec.mk 0 0 (-1)) : Ray ℝ)) = 4 ∧
    (-(spec_b (Vec.mk 0 0 (-3)) (Ray.mk (Vec.mk 0 0 0) (Vec.mk 0 0 (-1)) : Ray ℝ)) -
        Real.sqrt (spec_disc (Vec.mk 0 0 (-3)) 1 (Ray.mk (Vec.mk 0 0 0) (Vec.mk 0 0 (-1))))) /
      (2 * spec_a (Ray.mk (Vec.mk 0 0 0) (Vec.mk 0 0 (-1)) : Ray ℝ)) = 2 ∧
    sphere Real.sqrt (Vec.mk 0 0 (-3)) 1 (Ray.mk (Vec.mk 0 0 0) (Vec.mk 0 0 (-1))) = 4 ∧
    (2 : ℝ) ≤ sphere Real.sqrt (Vec.mk 0 0 (-3)) 1 (Ray.mk (Vec.mk 0 0 0) (Vec.mk 0 0 (-1))) := by
  have hb : spec_b (Vec.mk 0 0 (-3)) (Ray.mk (Vec.mk 0 0 0) (Vec.mk 0 0 (-1)) : Ray ℝ) = -6 := by
    simp only [spec_b, Vec.dot, Vec.sub]; norm_num
  have ha : spec_a (Ray.mk (Vec.mk 0 0 0) (Vec.mk 0 0 (-1)) : Ray ℝ) = 1 := by
    simp only [spec_a, Vec.dot]; norm_num
  have hD : spec_disc (Vec.mk 0 0 (-3)) 1 (Ray.mk (Vec.mk 0 0 0) (Vec.mk 0 0 (-1)) : Ray ℝ) = 4 := by
    simp only [spec_disc, hb, ha, spec_c, Vec.dot, Vec.sub]; norm_num
  have h1 : (Ray.mk (Vec.mk 0 0 0) (Vec.mk 0 0 (-1)) : Ray ℝ).direction.dot
      (Ray.mk (Vec.mk 0 0 0) (Vec.mk 0 0 (-1)) : Ray ℝ).direction = 1 := ha
  have h2 : 0 ≤ spec_disc (Vec.mk 0 0 (-3)) 1
      (Ray.mk (Vec.mk 0 0 0) (Vec.mk 0 0 (-1)) : Ray ℝ) := by rw [hD]; norm_num
  have hp : (-(spec_b (Vec.mk 0 0 (-3)) (Ray.mk (Vec.mk 0 0 0) (Vec.mk 0 0 (-1)) : Ray ℝ)) +
        Real.sqrt (spec_disc (Vec.mk 0 0 (-3)) 1 (Ray.mk (Vec.mk 0 0 0) (Vec.mk 0 0 (-1))))) /
      (2 * spec_a (Ray.mk (Vec.mk 0 0 0) (Vec.mk 0 0 (-1)) : Ray ℝ)) = 4 := by
    rw [hD, hb, ha, sqrt_four]; norm_num
  have hm : (-(spec_b (Vec.mk 0 0 (-3)) (Ray.mk (Vec.mk 0 0 0) (Vec.mk 0 0 (-1)) : Ray ℝ)) -
        Real.sqrt (spec_disc (Vec.mk 0 0 (-3)) 1 (Ray.mk (Vec.mk 0 0 0) (Vec.mk 0 0 (-1))))) /
      (2 * spec_a (Ray.mk (Vec.mk 0 0 0) (Vec.mk 0 0 (-1)) : Ray ℝ)) = 2 := by
    rw [hD, hb, ha, sqrt_four]; norm_num
  have hfar := (sphere_far_value_of_unit_direction _ _ _ h1 h2).1 (by rw [hp]; norm_num)
  have hnear := (sphere_far_value_of_unit_direction _ _ _ h1 h2).2 (by rw [hm]; norm_num)
  refine ⟨h1, h2, hp, hm, ?_, ?_⟩
  · rw [hfar.1, hp]
  · rw [← hm]; exact hnear.2

/-! ## C3: the returned parameter and the intersection equation -/

/-- C3 (code evaluated at the failing input): for the sphere with center
(0,0,-3) and radius 1 and the ray from (0,0,0) along (0,0,-2), the direction is
non-zero and the discriminant is non-negative, `sphere` returns 32, and the
point `ray_at 32` does not lie on the sphere; the roots of the intersection
quadratic are 1 and 2, whose points do lie on the sphere. -/
theorem sphere_result_off_sphere :
    (Ray.mk (Vec.mk 0 0 0) (Vec.mk 0 0 (-2)) : Ray ℝ).direction ≠ Vec.zero ∧
    0 ≤ spec_disc (Vec.mk 0 0 (-3)) 1 (Ray.mk (Vec.mk 0 0 0) (Vec.mk 0 0 (-2)) : Ray ℝ) ∧
    sphere Real.sqrt (Vec.mk 0 0 (-3)) 1 (Ray.mk (Vec.mk 0 0 0) (Vec.mk 0 0 (-2))) = 32 ∧
    ¬ on_sphere (Vec.mk 0 0 (-3)) 1
      ((Ray.mk (Vec.mk 0 0 0) (Vec.mk 0 0 (-2)) : Ray ℝ).ray_at
        (sphere Real.sqrt (Vec.mk 0 0 (-3)) 1 (Ray.mk (Vec.mk 0 0 0) (Vec.mk 0 0 (-2))))) ∧
    on_sphere (Vec.mk 0 0 (-3)) 1
      ((Ray.mk (Vec.mk 0 0 0) (Vec.mk 0 0 (-2)) : Ray ℝ).ray_at 1) ∧
    on_sphere (Vec.mk 0 0 (-3)) 1
      ((Ray.mk (Vec.mk 0 0 0) (Vec.mk 0 0 (-2)) : Ray ℝ).ray_at 2) := by
  have hb : spec_b (Vec.mk 0 0 (-3)) (Ray.mk (Vec.mk 0 0 0) (Vec.mk 0 0 (-2)) : Ray ℝ) = -12 := by
    simp only [spec_b, Vec.dot, Vec.sub]; norm_num
  have ha : spec_a (Ray.mk (Vec.mk 0 0 0) (Vec.mk 0 0 (-2)) : Ray ℝ) = 4 := by
    simp only [spec_a, Vec.dot]; norm_num
  have hD : spec_disc (Vec.mk 0 0 (-3)) 1
      (Ray.mk (Vec.mk 0 0 0) (Vec.mk 0 0 (-2)) : Ray ℝ) = 16 := by
    simp only [spec_disc, hb, ha, spec_c, Vec.dot, Vec.sub]; norm_num
  have hs : sphere Real.sqrt (Vec.mk 0 0 (-3)) 1
      (Ray.mk (Vec.mk 0 0 0) (Vec.mk 0 0 (-2))) = 32 := by
    rw [sphere_eq, hD, hb, ha, sqrt_sixteen]; norm_num
  refine ⟨?_, ?_, hs, ?_, ?_, ?_⟩
  · intro h
    have := congrArg Vec.z h
    simp [Vec.zero] at this
  · rw [hD]; norm_num
  · rw [hs]
    simp only [on_sphere, Ray.ray_at, Vec.add, Vec.sub, Vec.mul, Vec.dot]; norm_num
  · simp only [on_sphere, Ray.ray_at, Vec.add, Vec.sub, Vec.mul, Vec.dot]; norm_num
  · simp only [on_sphere, Ray.ray_at, Vec.add, Vec.sub, Vec.mul, Vec.dot]; norm_num

/-! ## C4: a ray that starts at the sphere center -/

/-- C4 (code evaluated at the failing input): for the sphere with center
(0,0,0) and radius 1 and the ray from the center along (0,0,2), `sphere`
returns 8 while `radius / |d|` is 1/2.  For the direction (0,0,1) of the
specification's example, `sphere` returns 1 and `ray_at 1` is (0,0,1). -/
theorem sphere_from_center_scaled_direction :
    (Ray.mk (Vec.mk 0 0 0) (Vec.mk 0 0 2) : Ray ℝ).direction ≠ Vec.zero ∧
    sphere Real.sqrt (Vec.mk 0 0 0) 1 (Ray.mk (Vec.mk 0 0 0) (Vec.mk 0 0 2)) = 8 ∧
    (1 : ℝ) / Vec.magnitude Real.sqrt (Vec.mk 0 0 2) = 1 / 2 ∧
    sphere Real.sqrt (Vec.mk 0 0 0) 1 (Ray.mk (Vec.mk 0 0 0) (Vec.mk 0 0 2)) ≠
      1 / Vec.magnitude Real.sqrt (Vec.mk 0 0 2) ∧
    sphere Real.sqrt (Vec.mk 0 0 0) 1 (Ray.mk (Vec.mk 0 0 0) (Vec.mk 0 0 1)) = 1 ∧
    (Ray.mk (Vec.mk 0 0 0) (Vec.mk 0 0 1) : Ray ℝ).ray_at
      (sphere Real.sqrt (Vec.mk 0 0 0) 1 (Ray.mk (Vec.mk 0 0 0) (Vec.mk 0 0 1))) =
        Vec.mk 0 0 1 := by
  have hb : spec_b (Vec.mk 0 0 0) (Ray.mk (Vec.mk 0 0 0) (Vec.mk 0 0 2) : Ray ℝ) = 0 := by
    simp only [spec_b, Vec.dot, Vec.sub]; norm_num
  have ha : spec_a (Ray.mk (Vec.mk 0 0 0) (Vec.mk 0 0 2) : Ray ℝ) = 4 := by
    simp only [spec_a, Vec.dot]; norm_num
  have hD : spec_disc (Vec.mk 0 0 0) 1 (Ray.mk (Vec.mk 0 0 0) (Vec.mk 0 0 2) : Ray ℝ) = 16 := by
    simp only [spec_disc, hb, ha, spec_c, Vec.dot, Vec.sub]; norm_num
  have hs : sphere Real.sqrt (Vec.mk 0 0 0) 1 (Ray.mk (Vec.mk 0 0 0) (Vec.mk 0 0 2)) = 8 := by
    rw [sphere_eq, hD, hb, ha, sqrt_sixteen]; norm_num
  have hm : Vec.magnitude Real.sqrt (Vec.mk 0 0 2) = 2 := by
    simp only [Vec.magnitude]; norm_num [sqrt_four]
  have hb1 : spec_b (Vec.mk 0 0 0) (Ray.mk (Vec.mk 0 0 0) (Vec.mk 0 0 1) : Ray ℝ) = 0 := by
    simp only [spec_b, Vec.dot, Vec.sub]; norm_num
  have ha1 : spec_a (Ray.mk (Vec.mk 0 0 0) (Vec.mk 0 0 1) : Ray ℝ) = 1 := by
    simp only [spec_a, Vec.dot]; norm_num
  have hD1 : spec_disc (Vec.mk 0 0 0) 1 (Ray.mk (Vec.mk 0 0 0) (Vec.mk 0 0 1) : Ray ℝ) = 4 := by
    simp only [spec_disc, hb1, ha1, spec_c, Vec.dot, Vec.sub]; norm_num
  have hs1 : sphere Real.sqrt (Vec.mk 0 0 0) 1 (Ray.mk (Vec.mk 0 0 0) (Vec.mk 0 0 1)) = 1 := by
    rw [sphere_eq, hD1, hb1, ha1, sqrt_four]; norm_num
  refine ⟨?_, hs, ?_, ?_, hs1, ?_⟩
  · intro h
    have := congrArg Vec.z h
    simp [Vec.zero] at this
  · rw [hm]
  · rw [hs, hm]; norm_num
  · rw [hs1]
    simp only [Ray.ray_at, Vec.add, Vec.mul]; norm_num

/-! ## The camera of `main` -/

section CameraLemmas

variable {F : Type} [LinearOrderedField F] [FloorRing F]

theorem iw_eq (F : Type) [LinearOrderedField F] [FloorRing F] : iw F = 640 := by
  unfold iw truncate aspect ih
  norm_num

theorem pixel_center_eq (i j : Int) :
    (pixel_center i j : Vec F) =
      Vec.mk ((2 * (i : F) + 1) / 480 - 4 / 3) (1 - (2 * (j : F) + 1) / 480) (-1) := by
  simp only [pixel_center, p0, pu, pv, vu, vv, vw, vh, eye, foc, Vec.add, Vec.mul, iw_eq, ih]
  refine congr (congr (congrArg Vec.mk ?_) ?_) ?_ <;> norm_num <;> ring

end CameraLemmas

/-! ## C7: the ray built for a pixel -/

/-- C7 (counterexample): for the pixel (0, 0), which is inside the image, the
ray that `main` builds does not have the eye point as its origin: the z
component of its origin is -1 while the eye is (0,0,0). -/
theorem pixel_ray_origin_counterexample :
    ((0 : Int) ≤ 0 ∧ (0 : Int) < iw ℝ) ∧ ((0 : Int) ≤ 0 ∧ (0 : Int) < ih) ∧
    (pixel_ray 0 0 : Ray ℝ).origin.z = -1 ∧
    (pixel_ray 0 0 : Ray ℝ).origin ≠ eye := by
  have hz : (pixel_ray 0 0 : Ray ℝ).origin.z = -1 := by
    simp only [pixel_ray, pixel_center_eq]
  refine ⟨⟨le_refl _, by rw [iw_eq]; norm_num⟩, ⟨le_refl _, by unfold ih; norm_num⟩, hz, ?_⟩
  intro h
  rw [h] at hz
  simp [eye] at hz

/-- C7 (amended): for every pixel `(i, j)`, in particular for every pixel with
`0 <= i < iw` and `0 <= j < ih`, the ray that `main` builds has origin equal to
the pixel center `p = p0 + pixel_delta_u*i + pixel_delta_v*j` and direction
equal to `p - eye`. -/
theorem pixel_ray_origin_direction {F : Type} [LinearOrderedField F] [FloorRing F]
    (i j : Int) :
    (pixel_ray i j : Ray F).origin =
        (((p0 : Vec F).add ((pu : Vec F).mul (i : F))).add ((pv : Vec F).mul (j : F))) ∧
      (pixel_ray i j : Ray F).direction =
        (((p0 : Vec F).add ((pu : Vec F).mul (i : F))).add ((pv : Vec F).mul (j : F))).sub eye := by
  have hp : (pixel_center i j : Vec F) =
      (((p0 : Vec F).add ((pu : Vec F).mul (i : F))).add ((pv : Vec F).mul (j : F))) := by
    simp only [pixel_center, Vec.add, add_assoc]
  simp only [pixel_ray, hp, and_self]

/-! ## C8: the background branch of `ray_color` -/

/-- C8: for every ray `r` for which `sphere((0,0,-3), 1, r)` returns a negative
or zero `t`, `ray_color(r)` is exactly the background colour (0.2, 0.2, 0.2). -/
theorem ray_color_background_of_nonpos {F : Type} [LinearOrderedField F]
    (sqrtf : F → F) (r : Ray F)
    (h : sphere sqrtf (Vec.mk 0 0 (-3)) 1 r ≤ 0) :
    ray_color sqrtf r = Vec.mk 0.2 0.2 0.2 := by
  simp only [ray_color, if_neg (not_lt.mpr h)]

/-- Witness for C8: the ray from (0,0,0) along (10,0,-1), for which `sphere`
returns -1. -/
theorem ray_color_background_of_nonpos_witness :
    sphere Real.sqrt (Vec.mk 0 0 (-3)) 1 (Ray.mk (Vec.mk 0 0 0) (Vec.mk 10 0 (-1))) ≤ 0 ∧
    ray_color Real.sqrt (Ray.mk (Vec.mk 0 0 0) (Vec.mk 10 0 (-1))) = Vec.mk 0.2 0.2 0.2 := by
  have h3 : spec_disc (Vec.mk 0 0 (-3)) 1
      (Ray.mk (Vec.mk 0 0 0) (Vec.mk 10 0 (-1)) : Ray ℝ) < 0 := by
    simp only [spec_disc, spec_a, spec_b, spec_c, Vec.dot, Vec.sub]; norm_num
  have h : sphere Real.sqrt (Vec.mk 0 0 (-3)) 1
      (Ray.mk (Vec.mk 0 0 0) (Vec.mk 10 0 (-1))) ≤ 0 := by
    rw [sphere_eq, if_pos h3]; norm_num
  exact ⟨h, ray_color_background_of_nonpos Real.sqrt _ h⟩

/-! ## Components of a normalized vector -/

theorem div_sqrt_bounds (x S : ℝ) (h : x ^ 2 ≤ S) :
    -1 ≤ x / Real.sqrt S ∧ x / Real.sqrt S ≤ 1 := by
  have habs := Real.abs_le_sqrt h
  have hs := Real.sqrt_nonneg S
  rw [← abs_le, abs_div, abs_of_nonneg hs]
  exact div_le_one_of_le₀ habs hs

/-! ## C10: the integers written for a colour -/

section WriterLemmas

variable {F : Type} [LinearOrderedField F] [FloorRing F]

theorem static_cast_int_of_range (v : F)
    (h : -2147483648 ≤ truncate v ∧ truncate v ≤ 2147483647) :
    static_cast_int v = some (truncate v) := by
  simp only [static_cast_int, if_pos h]

theorem truncate_of_nonneg (v : F) (h : 0 ≤ v) : truncate v = Int.floor v := by
  simp only [truncate, if_pos h]

theorem truncate_of_neg (v : F) (h : v < 0) : truncate v = Int.ceil v := by
  simp only [truncate, if_neg (not_le.mpr h)]

end WriterLemmas

/-- C10 (counterexample): for the colour (-1/2, 0, 0) the integers computed by
`vec_write_color` are (-127, 0, 0) and the line written is "-127 0 0", while
`floor(255.999 * (-1/2))` is -128. -/
theorem vec_write_color_floor_counterexample :
    color_ints (Vec.mk (-1 / 2) 0 0 : Vec ℝ) = some (-127, 0, 0) ∧
    vec_write_color "" (Vec.mk (-1 / 2) 0 0 : Vec ℝ) = some "-127 0 0\n" ∧
    Int.floor (255.999 * (-1 / 2) : ℝ) = -128 := by
  have ht : truncate (255.999 * (-1 / 2) : ℝ) = -127 := by
    rw [truncate_of_neg _ (by norm_num), Int.ceil_eq_iff]; norm_num
  have h0 : truncate (255.999 * 0 : ℝ) = 0 := by
    rw [truncate_of_nonneg _ (by norm_num)]; norm_num
  have hc : color_ints (Vec.mk (-1 / 2) 0 0 : Vec ℝ) = some (-127, 0, 0) := by
    simp only [color_ints]
    rw [static_cast_int_of_range _ (by rw [ht]; norm_num),
      static_cast_int_of_range _ (by rw [h0]; norm_num), ht, h0]
  refine ⟨hc, ?_, ?_⟩
  · simp only [vec_write_color, hc]
    decide
  · rw [Int.floor_eq_iff]; norm_num

/-- C10 (amended): for every colour whose scaled components `255.999 * c` have
a truncation that fits a 32-bit `int`, including colours with components
outside [0,1], each of the three integers `vec_write_color` writes equals
`255.999 * component` truncated toward zero, with no clamping: it equals
`floor(255.999 * component)` when the component is non-negative and
`ceil(255.999 * component)` when it is negative. -/
theorem vec_write_color_truncates {F : Type} [LinearOrderedField F] [FloorRing F]
    (outfile : String) (color : Vec F)
    (hx : -2147483648 ≤ truncate (255.999 * color.x) ∧
      truncate (255.999 * color.x) ≤ 2147483647)
    (hy : -2147483648 ≤ truncate (255.999 * color.y) ∧
      truncate (255.999 * color.y) ≤ 2147483647)
    (hz : -2147483648 ≤ truncate (255.999 * color.z) ∧
      truncate (255.999 * color.z) ≤ 2147483647) :
    color_ints color = some (truncate (255.999 * color.x), truncate (255.999 * color.y),
        truncate (255.999 * color.z)) ∧
      vec_write_color outfile color =
        some (outfile ++ pixel_line (truncate (255.999 * color.x))
          (truncate (255.999 * color.y)) (truncate (255.999 * color.z))) ∧
      (∀ c : F, 0 ≤ c → truncate (255.999 * c) = Int.floor (255.999 * c)) ∧
      (∀ c : F, c < 0 → truncate (255.999 * c) = Int.ceil (255.999 * c)) := by
  have hc : color_ints color = some (truncate (255.999 * color.x),
      truncate (255.999 * color.y), truncate (255.999 * color.z)) := by
    simp only [color_ints]
    rw [static_cast_int_of_range _ hx, static_cast_int_of_range _ hy,
      static_cast_int_of_range _ hz]
  refine ⟨hc, ?_, ?_, ?_⟩
  · simp only [vec_write_color, hc]
  · intro c h
    exact truncate_of_nonneg _ (mul_nonneg (by norm_num) h)
  · intro c h
    exact truncate_of_neg _ (mul_neg_of_pos_of_neg (by norm_num) h)

/-- Witness for C10 (amended): the colour (2, -1/2, 1/2), with components
above 1 and below 0; the line written is "511 -127 127". -/
theorem vec_write_color_truncates_witness :
    (-2147483648 ≤ truncate (255.999 * (Vec.mk 2 (-1 / 2) (1 / 2) : Vec ℝ).x) ∧
      truncate (255.999 * (Vec.mk 2 (-1 / 2) (1 / 2) : Vec ℝ).x) ≤ 2147483647) ∧
    (-2147483648 ≤ truncate (255.999 * (Vec.mk 2 (-1 / 2) (1 / 2) : Vec ℝ).y) ∧
      truncate (255.999 * (Vec.mk 2 (-1 / 2) (1 / 2) : Vec ℝ).y) ≤ 2147483647) ∧
    (-2147483648 ≤ truncate (255.999 * (Vec.mk 2 (-1 / 2) (1 / 2) : Vec ℝ).z) ∧
      truncate (255.999 * (Vec.mk 2 (-1 / 2) (1 / 2) : Vec ℝ).z) ≤ 2147483647) ∧
    vec_write_color "" (Vec.mk 2 (-1 / 2) (1 / 2) : Vec ℝ) = some "511 -127 127\n" := by
  have h1 : truncate (255.999 * (Vec.mk 2 (-1 / 2) (1 / 2) : Vec ℝ).x) = 511 := by
    rw [truncate_of_nonneg _ (by norm_num), Int.floor_eq_iff]; norm_num
  have h2 : truncate (255.999 * (Vec.mk 2 (-1 / 2) (1 / 2) : Vec ℝ).y) = -127 := by
    rw [truncate_of_neg _ (by norm_num), Int.ceil_eq_iff]; norm_num
  have h3 : truncate (255.999 * (Vec.mk 2 (-1 / 2) (1 / 2) : Vec ℝ).z) = 127 := by
    rw [truncate_of_nonneg _ (by norm_num), Int.floor_eq_iff]; norm_num
  have hx : -2147483648 ≤ truncate (255.999 * (Vec.mk 2 (-1 / 2) (1 / 2) : Vec ℝ).x) ∧
      truncate (255.999 * (Vec.mk 2 (-1 / 2) (1 / 2) : Vec ℝ).x) ≤ 2147483647 := by
    rw [h1]; norm_num
  have hy : -2147483648 ≤ truncate (255.999 * (Vec.mk 2 (-1 / 2) (1 / 2) : Vec ℝ).y) ∧
      truncate (255.999 * (Vec.mk 2 (-1 / 2) (1 / 2) : Vec ℝ).y) ≤ 2147483647 := by
    rw [h2]; norm_num
  have hz : -2147483648 ≤ truncate (255.999 * (Vec.mk 2 (-1 / 2) (1 / 2) : Vec ℝ).z) ∧
      truncate (255.999 * (Vec.mk 2 (-1 / 2) (1 / 2) : Vec ℝ).z) ≤ 2147483647 := by
    rw [h3]; norm_num
  refine ⟨hx, hy, hz, ?_⟩
  rw [(vec_write_color_truncates "" _ hx hy hz).2.1, h1, h2, h3]
  decide

/-! ## C16: the cross product -/

theorem dot_self_pos_of_ne_zero {F : Type} [LinearOrderedField F] (a : Vec F)
    (h : a ≠ Vec.zero) : 0 < a.x * a.x + a.y * a.y + a.z * a.z :=
  spec_a_pos (Ray.mk a a) h

/-- C16: for all vectors `a` and `b`, `a.cross(b) = -(b.cross(a))` in every
component, with `cross(a,b) = (a.y*b.z - a.z*b.y, a.z*b.x - a.x*b.z,
a.x*b.y - a.y*b.x)`. -/
theorem cross_anticomm {F : Type} [LinearOrderedField F] (a b : Vec F) :
    a.cross b = (b.cross a).neg ∧
      a.cross b = Vec.mk (a.y * b.z - a.z * b.y) (a.z * b.x - a.x * b.z)
        (a.x * b.y - a.y * b.x) := by
  refine ⟨?_, rfl⟩
  simp only [Vec.cross, Vec.neg, Vec.mk.injEq]
  refine ⟨?_, ?_, ?_⟩ <;> ring

/-! ## The reference render: pixel rays and their colours -/

section RenderLemmas

theorem ray_color_eq_background {F : Type} [LinearOrderedField F] (sqrtf : F → F) (r : Ray F)
    (h : ¬ 0 < sphere sqrtf (Vec.mk 0 0 (-3)) 1 r) :
    ray_color sqrtf r = Vec.mk 0.2 0.2 0.2 := by
  simp only [ray_color, gt_iff_lt, if_neg h]

theorem ray_color_eq_hit {F : Type} [LinearOrderedField F] (sqrtf : F → F) (r : Ray F)
    (h : 0 < sphere sqrtf (Vec.mk 0 0 (-3)) 1 r) :
    ray_color sqrtf r = spec_hit_color sqrtf r (sphere sqrtf (Vec.mk 0 0 (-3)) 1 r) := by
  simp only [ray_color, spec_hit_color, gt_iff_lt, if_pos h, Vec.add, Vec.mul]

theorem color_ints_background {F : Type} [LinearOrderedField F] [FloorRing F] :
    color_ints (Vec.mk 0.2 0.2 0.2 : Vec F) = some (51, 51, 51) := by
  have ht : truncate (255.999 * 0.2 : F) = 51 := by
    rw [truncate_of_nonneg _ (by norm_num), Int.floor_eq_iff]; norm_num
  simp only [color_ints]
  rw [static_cast_int_of_range _ (by rw [ht]; norm_num), ht]

theorem pixel_line_background : pixel_line 51 51 51 = "51 51 51\n" := by decide

theorem sphere_pos_of_neg_b (center : Vec ℝ) (radius : ℝ) (ray : Ray ℝ)
    (ha : 0 < spec_a ray) (hb : spec_b center ray < 0)
    (hdisc : 0 ≤ spec_disc center radius ray) :
    0 < sphere Real.sqrt center radius ray := by
  rw [sphere_eq, if_neg (not_lt.mpr hdisc)]
  have hs := Real.sqrt_nonneg (spec_disc center radius ray)
  have : 0 < -(spec_b center ray) + Real.sqrt (spec_disc center radius ray) := by linarith
  positivity

theorem center_pixel_ray : (pixel_ray 320 240 : Ray ℝ) =
    Ray.mk (Vec.mk (1 / 480) (-1 / 480) (-1)) (Vec.mk (1 / 480) (-1 / 480) (-1)) := by
  simp only [pixel_ray, pixel_center_eq, eye, Vec.sub, Ray.mk.injEq, Vec.mk.injEq]
  norm_num

theorem center_pixel_hit :
    0 < sphere Real.sqrt (Vec.mk 0 0 (-3)) 1 (pixel_ray 320 240) := by
  rw [center_pixel_ray]
  apply sphere_pos_of_neg_b
  · simp only [spec_a, Vec.dot]; norm_num
  · simp only [spec_b, Vec.dot, Vec.sub]; norm_num
  · simp only [spec_disc, spec_a, spec_b, spec_c, Vec.dot, Vec.sub]; norm_num

theorem pixel_normal_input_x_ne_zero (i j : Int) (t : ℝ) (ht : 0 < t) :
    (((pixel_ray i j : Ray ℝ).ray_at t).add (Vec.mk 0 0 5)).x ≠ 0 := by
  simp only [pixel_ray, pixel_center_eq, eye, Vec.sub, Ray.ray_at, Vec.add, Vec.mul]
  intro h
  have h1 : ((2 * (i : ℝ) + 1) / 480 - 4 / 3) * (1 + t) = 0 := by linarith
  rcases mul_eq_zero.mp h1 with h2 | h2
  · have h3 : (2 * (i : ℝ) + 1) = 640 := by linarith
    have h4 : (2 * i + 1 : Int) = 640 := by exact_mod_cast h3
    omega
  · linarith

theorem normalized_sq_sum (v : Vec ℝ) (h : v ≠ Vec.zero) :
    (Vec.normalized Real.sqrt v).x * (Vec.normalized Real.sqrt v).x +
      (Vec.normalized Real.sqrt v).y * (Vec.normalized Real.sqrt v).y +
      (Vec.normalized Real.sqrt v).z * (Vec.normalized Real.sqrt v).z = 1 := by
  have hS := dot_self_pos_of_ne_zero v h
  have hm : 0 < Real.sqrt (v.x * v.x + v.y * v.y + v.z * v.z) := Real.sqrt_pos.mpr hS
  have hmm := Real.mul_self_sqrt hS.le
  simp only [Vec.magnitude, Vec.normalized]
  field_simp

theorem hit_color_ne_background (r : Ray ℝ) (t : ℝ)
    (h : (r.ray_at t).add (Vec.mk 0 0 5) ≠ Vec.zero) :
    spec_hit_color Real.sqrt r t ≠ Vec.mk 0.2 0.2 0.2 := by
  have hsum := normalized_sq_sum _ h
  intro heq
  unfold spec_hit_color at heq
  generalize Vec.normalized Real.sqrt ((r.ray_at t).add (Vec.mk 0 0 5)) = n at hsum heq
  obtain ⟨nx, ny, nz⟩ := n
  simp only [Vec.add, Vec.mul, Vec.mk.injEq] at heq hsum
  obtain ⟨hx, hy, hz⟩ := heq
  have ex : nx = -0.6 := by norm_num at hx ⊢; linarith
  have ey : ny = -0.6 := by norm_num at hy ⊢; linarith
  have ez : nz = -0.6 := by norm_num at hz ⊢; linarith
  rw [ex, ey, ez] at hsum
  norm_num at hsum

end RenderLemmas

/-! ## C12: the line written for a ray that does not hit -/

theorem write_pixel_background {F : Type} [LinearOrderedField F] [FloorRing F]
    (sqrtf : F → F) (outfile : String) (r : Ray F)
    (h : ¬ 0 < sphere sqrtf (Vec.mk 0 0 (-3)) 1 r) :
    vec_write_color outfile (ray_color sqrtf r) = some (outfile ++ "51 51 51\n") := by
  rw [ray_color_eq_background sqrtf r h]
  simp only [vec_write_color, color_ints_background, pixel_line_background]

/-- C12: for every sequence of rays none of which hits the sphere (the result
of `sphere` is not `> 0`), the line that `vec_write_color(ray_color(ray))`
writes for each of them is exactly "51 51 51", `floor(255.999 * 0.2)` being
51; and writing the whole sequence, as the pixel loop of `main` does, appends
one line "51 51 51" per ray and nothing else. -/
theorem miss_writes_51 {F : Type} [LinearOrderedField F] [FloorRing F]
    (sqrtf : F → F) (rays : List (Ray F))
    (hmiss : ∀ r ∈ rays, ¬ 0 < sphere sqrtf (Vec.mk 0 0 (-3)) 1 r) :
    (∀ r ∈ rays, ∀ outfile : String,
        vec_write_color outfile (ray_color sqrtf r) = some (outfile ++ "51 51 51\n")) ∧
      Int.floor (255.999 * 0.2 : F) = 51 ∧
      ∀ outfile : String, rays.foldl (write_pixel sqrtf) (some outfile) =
        some (outfile ++ concat_lines (List.replicate rays.length "51 51 51\n")) := by
  refine ⟨fun r hr outfile => write_pixel_background sqrtf outfile r (hmiss r hr), ?_, ?_⟩
  · rw [Int.floor_eq_iff]; norm_num
  · induction rays with
    | nil =>
      intro outfile
      simp only [List.foldl_nil, List.length_nil, List.replicate_zero, concat_lines,
        List.foldr_nil, String.append_empty]
    | cons r rest ih =>
      intro outfile
      have hr := write_pixel_background sqrtf outfile r (hmiss r (List.mem_cons_self _ _))
      simp only [List.foldl_cons, write_pixel, Option.some_bind, hr]
      have := ih (fun r' hr' => hmiss r' (List.mem_cons_of_mem _ hr')) (outfile ++ "51 51 51\n")
      simp only [write_pixel] at this
      rw [this]
      simp only [List.length_cons, List.replicate_succ, concat_lines, List.foldr_cons,
        String.append_assoc]

/-- Witness for C12: the two rays from (0,0,0) along (10,0,-1) and along
(0,0,1), which both leave the sphere aside or behind; two lines "51 51 51" are
written after the header. -/
theorem miss_writes_51_witness :
    (∀ r ∈ [(Ray.mk (Vec.mk 0 0 0) (Vec.mk 10 0 (-1)) : Ray ℝ),
        Ray.mk (Vec.mk 0 0 0) (Vec.mk 0 0 1)],
      ¬ 0 < sphere Real.sqrt (Vec.mk 0 0 (-3)) 1 r) ∧
    [(Ray.mk (Vec.mk 0 0 0) (Vec.mk 10 0 (-1)) : Ray ℝ),
        Ray.mk (Vec.mk 0 0 0) (Vec.mk 0 0 1)].foldl (write_pixel Real.sqrt) (some header) =
      some "P3\n640 480\n255\n51 51 51\n51 51 51\n" := by
  have h1 : ¬ 0 < sphere Real.sqrt (Vec.mk 0 0 (-3)) 1
      (Ray.mk (Vec.mk 0 0 0) (Vec.mk 10 0 (-1)) : Ray ℝ) := by
    have h3 : spec_disc (Vec.mk 0 0 (-3)) 1
        (Ray.mk (Vec.mk 0 0 0) (Vec.mk 10 0 (-1)) : Ray ℝ) < 0 := by
      simp only [spec_disc, spec_a, spec_b, spec_c, Vec.dot, Vec.sub]; norm_num
    rw [sphere_eq, if_pos h3]; norm_num
  have h2 : ¬ 0 < sphere Real.sqrt (Vec.mk 0 0 (-3)) 1
      (Ray.mk (Vec.mk 0 0 0) (Vec.mk 0 0 1) : Ray ℝ) := by
    have hb : spec_b (Vec.mk 0 0 (-3)) (Ray.mk (Vec.mk 0 0 0) (Vec.mk 0 0 1) : Ray ℝ) = 6 := by
      simp only [spec_b, Vec.dot, Vec.sub]; norm_num
    have ha : spec_a (Ray.mk (Vec.mk 0 0 0) (Vec.mk 0 0 1) : Ray ℝ) = 1 := by
      simp only [spec_a, Vec.dot]; norm_num
    have hD : spec_disc (Vec.mk 0 0 (-3)) 1
        (Ray.mk (Vec.mk 0 0 0) (Vec.mk 0 0 1) : Ray ℝ) = 4 := by
      simp only [spec_disc, hb, ha, spec_c, Vec.dot, Vec.sub]; norm_num
    rw [sphere_eq, hD, hb, ha, sqrt_four]; norm_num
  have hall : ∀ r ∈ [(Ray.mk (Vec.mk 0 0 0) (Vec.mk 10 0 (-1)) : Ray ℝ),
      Ray.mk (Vec.mk 0 0 0) (Vec.mk 0 0 1)],
      ¬ 0 < sphere Real.sqrt (Vec.mk 0 0 (-3)) 1 r := by
    intro r hr
    simp only [List.mem_cons, List.mem_singleton, List.not_mem_nil, or_false] at hr
    rcases hr with rfl | rfl
    · exact h1
    · exact h2
  refine ⟨hall, ?_⟩
  rw [(miss_writes_51 Real.sqrt _ hall).2.2 header]
  decide

/-! ## C13: the center pixel -/

/-- C13: in the reference configuration (`iw` = 640, `ih` = 480, viewport
height 2, eye (0,0,0), focal offset (0,0,-1), sphere center (0,0,-3), radius 1)
the ray that `main` builds for the center pixel (320, 240) makes `sphere`
return a value `> 0`, so `ray_color` returns the colour of its hit branch,
which is not the background colour. -/
theorem center_pixel_ray_hits :
    iw ℝ = 640 ∧ ih = 480 ∧ (vh : ℝ) = 2 ∧ (eye : Vec ℝ) = Vec.mk 0 0 0 ∧
      (foc : Vec ℝ) = Vec.mk 0 0 (-1) ∧
      0 < sphere Real.sqrt (Vec.mk 0 0 (-3)) 1 (pixel_ray 320 240) ∧
      ray_color Real.sqrt (pixel_ray 320 240) =
        spec_hit_color Real.sqrt (pixel_ray 320 240)
          (sphere Real.sqrt (Vec.mk 0 0 (-3)) 1 (pixel_ray 320 240)) ∧
      ray_color Real.sqrt (pixel_ray 320 240) ≠ Vec.mk 0.2 0.2 0.2 := by
  refine ⟨iw_eq ℝ, rfl, rfl, rfl, rfl, center_pixel_hit, ray_color_eq_hit _ _ center_pixel_hit, ?_⟩
  rw [ray_color_eq_hit _ _ center_pixel_hit]
  apply hit_color_ne_background
  intro h
  exact pixel_normal_input_x_ne_zero 320 240 _ center_pixel_hit (congrArg Vec.x h)

/-! ## C19: the normalization input of the reference render -/

/-- C19: for every pixel `(i, j)`, in particular for `0 <= i < 640` and
`0 <= j < 480`, whose ray hits (`t = sphere((0,0,-3), 1, ray) > 0`), the vector
`ray_at(t) + (0,0,5)` that `ray_color` passes to `normalized()` is non-zero and
its magnitude, by which `normalized()` divides, is non-zero. -/
theorem pixel_normal_input_ne_zero (i j : Int)
    (hhit : 0 < sphere Real.sqrt (Vec.mk 0 0 (-3)) 1 (pixel_ray i j)) :
    ((pixel_ray i j : Ray ℝ).ray_at
        (sphere Real.sqrt (Vec.mk 0 0 (-3)) 1 (pixel_ray i j))).add (Vec.mk 0 0 5) ≠ Vec.zero ∧
      Vec.magnitude Real.sqrt (((pixel_ray i j : Ray ℝ).ray_at
        (sphere Real.sqrt (Vec.mk 0 0 (-3)) 1 (pixel_ray i j))).add (Vec.mk 0 0 5)) ≠ 0 := by
  have hne : ((pixel_ray i j : Ray ℝ).ray_at
      (sphere Real.sqrt (Vec.mk 0 0 (-3)) 1 (pixel_ray i j))).add (Vec.mk 0 0 5) ≠ Vec.zero := by
    intro h
    exact pixel_normal_input_x_ne_zero i j _ hhit (congrArg Vec.x h)
  refine ⟨hne, ?_⟩
  have hS := dot_self_pos_of_ne_zero _ hne
  exact (Real.sqrt_pos.mpr hS).ne'

/-- Witness for C19: the center pixel (320, 240), whose ray hits. -/
theorem pixel_normal_input_ne_zero_witness :
    ((0 : Int) ≤ 320 ∧ (320 : Int) < 640) ∧ ((0 : Int) ≤ 240 ∧ (240 : Int) < 480) ∧
    0 < sphere Real.sqrt (Vec.mk 0 0 (-3)) 1 (pixel_ray 320 240) ∧
    ((pixel_ray 320 240 : Ray ℝ).ray_at
        (sphere Real.sqrt (Vec.mk 0 0 (-3)) 1 (pixel_ray 320 240))).add (Vec.mk 0 0 5) ≠
      Vec.zero :=
  ⟨by decide, by decide, center_pixel_hit, (pixel_normal_input_ne_zero 320 240 center_pixel_hit).1⟩

/-! ## C18: the normal proxy of `ray_color` -/

/-- C18 (counterexample): the auxiliary point (0,0,5) of `ray_color` is not the
negated center (0,0,3) of the sphere (0,0,-3).  For the ray from (0,0,0) along
(0,0,-1), `sphere` returns 4, the point `P = ray_at(4) = (0,0,-4)` lies on the
sphere, the normal proxy `normalized(P + (0,0,5))` is (0,0,1) and the outward
unit normal `(P - center) / |P - center|` is (0,0,-1); `ray_color` returns
(0.5, 0.5, 1), the colour of the proxy. -/
theorem normal_proxy_counterexample :
    (Vec.mk 0 0 5 : Vec ℝ) ≠ (Vec.mk 0 0 (-3) : Vec ℝ).neg ∧
    sphere Real.sqrt (Vec.mk 0 0 (-3)) 1 (Ray.mk (Vec.mk 0 0 0) (Vec.mk 0 0 (-1))) = 4 ∧
    on_sphere (Vec.mk 0 0 (-3)) 1
      ((Ray.mk (Vec.mk 0 0 0) (Vec.mk 0 0 (-1)) : Ray ℝ).ray_at 4) ∧
    Vec.normalized Real.sqrt
      (((Ray.mk (Vec.mk 0 0 0) (Vec.mk 0 0 (-1)) : Ray ℝ).ray_at 4).add (Vec.mk 0 0 5)) =
        Vec.mk 0 0 1 ∧
    Vec.normalized Real.sqrt
      (((Ray.mk (Vec.mk 0 0 0) (Vec.mk 0 0 (-1)) : Ray ℝ).ray_at 4).sub (Vec.mk 0 0 (-3))) =
        Vec.mk 0 0 (-1) ∧
    Vec.normalized Real.sqrt
      (((Ray.mk (Vec.mk 0 0 0) (Vec.mk 0 0 (-1)) : Ray ℝ).ray_at 4).add (Vec.mk 0 0 5)) ≠
    Vec.normalized Real.sqrt
      (((Ray.mk (Vec.mk 0 0 0) (Vec.mk 0 0 (-1)) : Ray ℝ).ray_at 4).sub (Vec.mk 0 0 (-3))) ∧
    ray_color Real.sqrt (Ray.mk (Vec.mk 0 0 0) (Vec.mk 0 0 (-1))) = Vec.mk 0.5 0.5 1 := by
  have hb : spec_b (Vec.mk 0 0 (-3)) (Ray.mk (Vec.mk 0 0 0) (Vec.mk 0 0 (-1)) : Ray ℝ) = -6 := by
    simp only [spec_b, Vec.dot, Vec.sub]; norm_num
  have ha : spec_a (Ray.mk (Vec.mk 0 0 0) (Vec.mk 0 0 (-1)) : Ray ℝ) = 1 := by
    simp only [spec_a, Vec.dot]; norm_num
  have hD : spec_disc (Vec.mk 0 0 (-3)) 1 (Ray.mk (Vec.mk 0 0 0) (Vec.mk 0 0 (-1)) : Ray ℝ) = 4 := by
    simp only [spec_disc, hb, ha, spec_c, Vec.dot, Vec.sub]; norm_num
  have hs : sphere Real.sqrt (Vec.mk 0 0 (-3)) 1
      (Ray.mk (Vec.mk 0 0 0) (Vec.mk 0 0 (-1))) = 4 := by
    rw [sphere_eq, hD, hb, ha, sqrt_four]; norm_num
  have hn : Vec.normalized Real.sqrt
      (((Ray.mk (Vec.mk 0 0 0) (Vec.mk 0 0 (-1)) : Ray ℝ).ray_at 4).add (Vec.mk 0 0 5)) =
        Vec.mk 0 0 1 := by
    simp only [Vec.normalized, Vec.magnitude, Ray.ray_at, Vec.add, Vec.mul, Vec.mk.injEq]
    norm_num
  have ht : Vec.normalized Real.sqrt
      (((Ray.mk (Vec.mk 0 0 0) (Vec.mk 0 0 (-1)) : Ray ℝ).ray_at 4).sub (Vec.mk 0 0 (-3))) =
        Vec.mk 0 0 (-1) := by
    simp only [Vec.normalized, Vec.magnitude, Ray.ray_at, Vec.add, Vec.sub, Vec.mul,
      Vec.mk.injEq]
    norm_num
  refine ⟨?_, hs, ?_, hn, ht, ?_, ?_⟩
  · intro h
    have := congrArg Vec.z h
    simp only [Vec.neg] at this
    norm_num at this
  · simp only [on_sphere, Ray.ray_at, Vec.add, Vec.sub, Vec.mul, Vec.dot]; norm_num
  · rw [hn, ht]
    intro h
    have := congrArg Vec.z h
    norm_num at this
  · rw [ray_color_eq_hit _ _ (by rw [hs]; norm_num), hs]
    unfold spec_hit_color
    rw [hn]
    simp only [Vec.add, Vec.mul, Vec.mk.injEq]
    norm_num

/-- C18 (amended): in `ray_color` the auxiliary point (0,0,5) added to the hit
point is not the negated center (0,0,3) of the hardcoded sphere but the
negation of (0,0,-5), so for every hit the normal proxy
`n = normalized(ray_at(t) + (0,0,5))` is `normalized(P - (0,0,-5))` with
`P = ray_at(t)`, the normalized vector that points to `P` from (0,0,-5) and not
from the center (0,0,-3); `ray_color` returns `(n + (1,1,1)) * 0.5` for it. -/
theorem normal_proxy_from_offset_point {F : Type} [LinearOrderedField F] (sqrtf : F → F)
    (r : Ray F) (t : F)
    (ht : sphere sqrtf (Vec.mk 0 0 (-3)) 1 r = t) (hpos : 0 < t) :
    (Vec.mk 0 0 5 : Vec F) = (Vec.mk 0 0 (-5) : Vec F).neg ∧
      (Vec.mk 0 0 5 : Vec F) ≠ (Vec.mk 0 0 (-3) : Vec F).neg ∧
      (r.ray_at t).add (Vec.mk 0 0 5) = (r.ray_at t).sub (Vec.mk 0 0 (-5)) ∧
      ray_color sqrtf r =
        ((Vec.normalized sqrtf ((r.ray_at t).sub (Vec.mk 0 0 (-5)))).add (Vec.mk 1 1 1)).mul
          0.5 := by
  subst ht
  have hoff : ∀ P : Vec F, P.add (Vec.mk 0 0 5) = P.sub (Vec.mk 0 0 (-5)) := by
    intro P
    simp only [Vec.add, Vec.sub, Vec.mk.injEq]
    refine ⟨?_, ?_, ?_⟩ <;> ring
  refine ⟨?_, ?_, hoff _, ?_⟩
  · simp only [Vec.neg, Vec.mk.injEq]
    norm_num
  · intro h
    have := congrArg Vec.z h
    simp only [Vec.neg] at this
    norm_num at this
  · rw [ray_color_eq_hit _ _ hpos]
    unfold spec_hit_color
    rw [hoff]

/-- Witness for C18 (amended): the ray from (0,0,0) along (0,0,-1), for which
`sphere` returns 4. -/
theorem normal_proxy_from_offset_point_witness :
    sphere Real.sqrt (Vec.mk 0 0 (-3)) 1 (Ray.mk (Vec.mk 0 0 0) (Vec.mk 0 0 (-1))) = 4 ∧
    (0 : ℝ) < 4 ∧
    ray_color Real.sqrt (Ray.mk (Vec.mk 0 0 0) (Vec.mk 0 0 (-1))) =
      ((Vec.normalized Real.sqrt
        (((Ray.mk (Vec.mk 0 0 0) (Vec.mk 0 0 (-1)) : Ray ℝ).ray_at 4).sub
          (Vec.mk 0 0 (-5)))).add (Vec.mk 1 1 1)).mul 0.5 := by
  have hb : spec_b (Vec.mk 0 0 (-3)) (Ray.mk (Vec.mk 0 0 0) (Vec.mk 0 0 (-1)) : Ray ℝ) = -6 := by
    simp only [spec_b, Vec.dot, Vec.sub]; norm_num
  have ha : spec_a (Ray.mk (Vec.mk 0 0 0) (Vec.mk 0 0 (-1)) : Ray ℝ) = 1 := by
    simp only [spec_a, Vec.dot]; norm_num
  have hD : spec_disc (Vec.mk 0 0 (-3)) 1 (Ray.mk (Vec.mk 0 0 0) (Vec.mk 0 0 (-1)) : Ray ℝ) = 4 := by
    simp only [spec_disc, hb, ha, spec_c, Vec.dot, Vec.sub]; norm_num
  have hs : sphere Real.sqrt (Vec.mk 0 0 (-3)) 1
      (Ray.mk (Vec.mk 0 0 0) (Vec.mk 0 0 (-1))) = 4 := by
    rw [sphere_eq, hD, hb, ha, sqrt_four]; norm_num
  exact ⟨hs, by norm_num,
    (normal_proxy_from_offset_point Real.sqrt _ 4 hs (by norm_num)).2.2.2⟩

/-! ## C11: the integers written for the pixels of the reference render -/

theorem ray_color_unit_range (r : Ray ℝ) :
    (0 ≤ (ray_color Real.sqrt r).x ∧ (ray_color Real.sqrt r).x ≤ 1) ∧
      (0 ≤ (ray_color Real.sqrt r).y ∧ (ray_color Real.sqrt r).y ≤ 1) ∧
      (0 ≤ (ray_color Real.sqrt r).z ∧ (ray_color Real.sqrt r).z ≤ 1) := by
  by_cases hhit : 0 < sphere Real.sqrt (Vec.mk 0 0 (-3)) 1 r
  · rw [ray_color_eq_hit _ _ hhit]
    unfold spec_hit_color
    generalize (r.ray_at (sphere Real.sqrt (Vec.mk 0 0 (-3)) 1 r)).add (Vec.mk 0 0 5) = v
    obtain ⟨x, y, z⟩ := v
    simp only [Vec.normalized, Vec.magnitude, Vec.add, Vec.mul]
    have hx := div_sqrt_bounds x (x * x + y * y + z * z) (by nlinarith [sq_nonneg y, sq_nonneg z])
    have hy := div_sqrt_bounds y (x * x + y * y + z * z) (by nlinarith [sq_nonneg x, sq_nonneg z])
    have hz := div_sqrt_bounds z (x * x + y * y + z * z) (by nlinarith [sq_nonneg x, sq_nonneg y])
    norm_num
    refine ⟨⟨?_, ?_⟩, ⟨?_, ?_⟩, ⟨?_, ?_⟩⟩ <;> linarith [hx.1, hx.2, hy.1, hy.2, hz.1, hz.2]
  · rw [ray_color_eq_background _ _ hhit]
    norm_num

theorem truncate_unit_range {F : Type} [LinearOrderedField F] [FloorRing F] (c : F)
    (h0 : 0 ≤ c) (h1 : c ≤ 1) :
    0 ≤ truncate (255.999 * c) ∧ truncate (255.999 * c) ≤ 255 := by
  have hnn : (0 : F) ≤ 255.999 * c := mul_nonneg (by norm_num) h0
  rw [truncate_of_nonneg _ hnn]
  refine ⟨Int.floor_nonneg.mpr hnn, ?_⟩
  have hlt : Int.floor (255.999 * c) < 256 := by
    rw [Int.floor_lt]
    have : (255.999 : F) * c ≤ 255.999 * 1 := mul_le_mul_of_nonneg_left h1 (by norm_num)
    push_cast
    norm_num at this ⊢
    linarith
  omega

theorem color_ints_unit_range {F : Type} [LinearOrderedField F] [FloorRing F] (c : Vec F)
    (hx : 0 ≤ c.x ∧ c.x ≤ 1) (hy : 0 ≤ c.y ∧ c.y ≤ 1) (hz : 0 ≤ c.z ∧ c.z ≤ 1) :
    ∃ ir ig ib : Int, color_ints c = some (ir, ig, ib) ∧
      (0 ≤ ir ∧ ir ≤ 255) ∧ (0 ≤ ig ∧ ig ≤ 255) ∧ (0 ≤ ib ∧ ib ≤ 255) := by
  have tx := truncate_unit_range c.x hx.1 hx.2
  have ty := truncate_unit_range c.y hy.1 hy.2
  have tz := truncate_unit_range c.z hz.1 hz.2
  refine ⟨truncate (255.999 * c.x), truncate (255.999 * c.y), truncate (255.999 * c.z),
    ?_, tx, ty, tz⟩
  simp only [color_ints]
  rw [static_cast_int_of_range _ ⟨by omega, by omega⟩,
    static_cast_int_of_range _ ⟨by omega, by omega⟩,
    static_cast_int_of_range _ ⟨by omega, by omega⟩]

theorem write_ray_color (r : Ray ℝ) (outfile : String) :
    ∃ ir ig ib : Int, color_ints (ray_color Real.sqrt r) = some (ir, ig, ib) ∧
      vec_write_color outfile (ray_color Real.sqrt r) =
        some (outfile ++ pixel_line ir ig ib) ∧
      (0 ≤ ir ∧ ir ≤ 255) ∧ (0 ≤ ig ∧ ig ≤ 255) ∧ (0 ≤ ib ∧ ib ≤ 255) := by
  obtain ⟨hx, hy, hz⟩ := ray_color_unit_range r
  obtain ⟨ir, ig, ib, hc, hr, hg, hb⟩ := color_ints_unit_range _ hx hy hz
  refine ⟨ir, ig, ib, hc, ?_, hr, hg, hb⟩
  simp only [vec_write_color, hc]

/-- C11: for every pixel `(i, j)` of the render, in particular for
`0 <= i < 640` and `0 <= j < 480`, `vec_write_color(ray_color(ray(i, j)))`
writes three integers (red, green, blue) that are each in [0, 255]. -/
theorem pixel_ints_in_byte_range (i j : Int) (outfile : String) :
    ∃ ir ig ib : Int,
      color_ints (ray_color Real.sqrt (pixel_ray i j)) = some (ir, ig, ib) ∧
      vec_write_color outfile (ray_color Real.sqrt (pixel_ray i j)) =
        some (outfile ++ pixel_line ir ig ib) ∧
      (0 ≤ ir ∧ ir ≤ 255) ∧ (0 ≤ ig ∧ ig ≤ 255) ∧ (0 ≤ ib ∧ ib ≤ 255) :=
  write_ray_color (pixel_ray i j) outfile

/-! ## C14: the lines of the output of `main` -/

section OutputLemmas

theorem newline_count_append (s t : String) :
    newline_count (s ++ t) = newline_count s + newline_count t := by
  simp only [newline_count, String.data_append, List.count_append]

theorem digitChar_ne_newline (d : Nat) (h : d < 10) : Nat.digitChar d ≠ '\n' := by
  interval_cases d <;> decide

theorem toDigitsCore_no_newline (fuel n : Nat) (acc : List Char) (h : '\n' ∉ acc) :
    '\n' ∉ Nat.toDigitsCore 10 fuel n acc := by
  induction fuel generalizing n acc with
  | zero => simpa [Nat.toDigitsCore] using h
  | succ f ih =>
    have hd : '\n' ∉ Nat.digitChar (n % 10) :: acc := by
      intro hmem
      rcases List.mem_cons.mp hmem with h1 | h1
      · exact digitChar_ne_newline (n % 10) (Nat.mod_lt _ (by norm_num)) h1.symm
      · exact h h1
    simp only [Nat.toDigitsCore]
    split
    · exact hd
    · exact ih _ _ hd

theorem newline_count_nat (n : Nat) : newline_count (toString n) = 0 := by
  have h : '\n' ∉ Nat.toDigits 10 n :=
    toDigitsCore_no_newline _ _ _ (List.not_mem_nil _)
  show List.count '\n' (Nat.toDigits 10 n) = 0
  exact List.count_eq_zero.mpr h

theorem newline_count_int (n : Int) : newline_count (toString n) = 0 := by
  cases n with
  | ofNat m => exact newline_count_nat m
  | negSucc m =>
    show newline_count ("-" ++ toString (Nat.succ m)) = 0
    rw [newline_count_append, newline_count_nat]
    decide

theorem newline_count_pixel_line (ir ig ib : Int) :
    newline_count (pixel_line ir ig ib) = 1 := by
  simp only [pixel_line, newline_count_append, newline_count_int]
  decide

theorem concat_lines_append (a b : List String) :
    concat_lines (a ++ b) = concat_lines a ++ concat_lines b := by
  induction a with
  | nil => simp only [List.nil_append, concat_lines, List.foldr_nil, String.empty_append]
  | cons l rest ih =>
    simp only [concat_lines, List.cons_append, List.foldr_cons, String.append_assoc] at ih ⊢
    rw [ih]

theorem newline_count_concat_lines (pixels : List String)
    (h : ∀ l ∈ pixels, newline_count l = 1) :
    newline_count (concat_lines pixels) = pixels.length := by
  induction pixels with
  | nil => decide
  | cons l rest ih =>
    have h1 := h l (List.mem_cons_self _ _)
    have h2 := ih (fun l' hl' => h l' (List.mem_cons_of_mem _ hl'))
    simp only [concat_lines, List.foldr_cons, List.length_cons] at h2 ⊢
    rw [newline_count_append, h1, h2]
    omega

theorem foldl_write_pixel {α : Type} (f : α → Ray ℝ) (l : List α) (out : String) :
    ∃ pixels : List String,
      l.foldl (fun o i => write_pixel Real.sqrt o (f i)) (some out) =
        some (out ++ concat_lines pixels) ∧
      pixels.length = l.length ∧
      ∀ p ∈ pixels, ∃ ir ig ib : Int, p = pixel_line ir ig ib ∧
        (0 ≤ ir ∧ ir ≤ 255) ∧ (0 ≤ ig ∧ ig ≤ 255) ∧ (0 ≤ ib ∧ ib ≤ 255) := by
  induction l generalizing out with
  | nil =>
    exact ⟨[], by simp only [List.foldl_nil, concat_lines, List.foldr_nil, String.append_empty],
      rfl, fun p hp => absurd hp (List.not_mem_nil _)⟩
  | cons i rest ih =>
    obtain ⟨ir, ig, ib, -, hw, hr, hg, hb⟩ := write_ray_color (f i) out
    obtain ⟨pixels, hfold, hlen, hall⟩ := ih (out ++ pixel_line ir ig ib)
    refine ⟨pixel_line ir ig ib :: pixels, ?_, ?_, ?_⟩
    · simp only [List.foldl_cons, write_pixel, Option.some_bind, hw]
      simp only [write_pixel] at hfold
      rw [hfold]
      simp only [concat_lines, List.foldr_cons, String.append_assoc]
    · simp only [List.length_cons, hlen]
    · intro p hp
      rcases List.mem_cons.mp hp with h1 | h1
      · exact ⟨ir, ig, ib, h1, hr, hg, hb⟩
      · exact hall p h1

theorem foldl_write_row (js : List Nat) (out : String) :
    ∃ pixels : List String,
      js.foldl (write_row Real.sqrt) (some out) = some (out ++ concat_lines pixels) ∧
      pixels.length = js.length * (iw ℝ).toNat ∧
      ∀ p ∈ pixels, ∃ ir ig ib : Int, p = pixel_line ir ig ib ∧
        (0 ≤ ir ∧ ir ≤ 255) ∧ (0 ≤ ig ∧ ig ≤ 255) ∧ (0 ≤ ib ∧ ib ≤ 255) := by
  induction js generalizing out with
  | nil =>
    exact ⟨[], by simp only [List.foldl_nil, concat_lines, List.foldr_nil, String.append_empty],
      by simp only [List.length_nil, Nat.zero_mul],
      fun p hp => absurd hp (List.not_mem_nil _)⟩
  | cons j rest ih =>
    obtain ⟨row, hrow, hlen, hall⟩ :=
      foldl_write_pixel (fun i : Nat => (pixel_ray (i : Int) (j : Int) : Ray ℝ))
        (List.range (iw ℝ).toNat) out
    obtain ⟨pixels, hfold, hlen2, hall2⟩ := ih (out ++ concat_lines row)
    refine ⟨row ++ pixels, ?_, ?_, ?_⟩
    · simp only [List.foldl_cons]
      have : write_row Real.sqrt (some out) j = some (out ++ concat_lines row) := by
        unfold write_row
        exact hrow
      rw [this, hfold, concat_lines_append, String.append_assoc]
    · simp only [List.length_append, List.length_cons, hlen, hlen2, List.length_range]
      rw [Nat.succ_mul, Nat.add_comm]
    · intro p hp
      rcases List.mem_append.mp hp with h1 | h1
      · exact hall p h1
      · exact hall2 p h1

end OutputLemmas

/-- C14: the loop bounds of `main` are `iw = int(aspect * ih) = 640` and
`ih = 480`, the width and height written in the header; the output of `main`
is the header "P3", "640 480", "255" followed by exactly `iw * ih = 640 * 480`
pixel lines, each made of three integers in [0, 255] and one newline; it has
exactly `3 + 640 * 480` lines. -/
theorem main_output_lines :
    iw ℝ = 640 ∧ ih = 480 ∧ header = "P3\n640 480\n255\n" ∧
      ∃ pixels : List String,
        main Real.sqrt = some (header ++ concat_lines pixels) ∧
        pixels.length = (iw ℝ).toNat * ih.toNat ∧
        pixels.length = 640 * 480 ∧
        (∀ p ∈ pixels, ∃ ir ig ib : Int, p = pixel_line ir ig ib ∧
          (0 ≤ ir ∧ ir ≤ 255) ∧ (0 ≤ ig ∧ ig ≤ 255) ∧ (0 ≤ ib ∧ ib ≤ 255)) ∧
        (∀ p ∈ pixels, newline_count p = 1) ∧
        newline_count (header ++ concat_lines pixels) = 3 + 640 * 480 := by
  refine ⟨iw_eq ℝ, rfl, rfl, ?_⟩
  obtain ⟨pixels, hfold, hlen, hall⟩ := foldl_write_row (List.range ih.toNat) header
  have hone : ∀ p ∈ pixels, newline_count p = 1 := by
    intro p hp
    obtain ⟨ir, ig, ib, rfl, -⟩ := hall p hp
    exact newline_count_pixel_line ir ig ib
  have hlen2 : pixels.length = 640 * 480 := by
    rw [hlen, List.length_range, iw_eq]
    decide
  refine ⟨pixels, hfold, ?_, hlen2, hall, hone, ?_⟩
  · rw [hlen, List.length_range, Nat.mul_comm]
  · rw [newline_count_append, newline_count_concat_lines pixels hone, hlen2]
    decide

end RayTracing
